import Mathlib

/-!
Verification of the candidate-selection analysis pipeline (TROREP).

Shallow embedding of the core functions of the analysis scripts:
  * `analyze_doc_balancing.py`   : `get_balanced_ranking`
  * `analyze_dreq_filtering.py`  : `collect_filtered_eqrels`, `filter_ranking`,
                                   `get_statistics`
  * `analyze_shared_entities.py` : `get_classified_entities`

Python dicts are modelled as association lists (`List (String × _)`), which
preserve the insertion order a `dict` guarantees; qrels grades are `Int`,
ranking scores are `ℚ`.  Python's stable descending sort
(`sorted(docs.keys(), key=lambda x: docs[x], reverse=True)`) is modelled by
Mathlib's stable `List.insertionSort` on the pair list with the
score-descending relation, projected to keys.  Fallible code (a `KeyError` /
`TypeError` on a missing lookup) is modelled with `Option`.  Warnings emitted
by `logging.warning` are modelled as explicit lists of warned items.
-/

namespace TROREP

/-- A per-query candidate map (`dict` of candidate id → score). -/
abbrev Docs := List (String × ℚ)

/-- A per-query judgment map (`dict` of candidate id → integer grade). -/
abbrev TopicQrels := List (String × Int)

/-- A ranking (`dict` of query id → candidate map). -/
abbrev Ranking := List (String × Docs)

/-- Relevance judgments (`dict` of query id → judgment map). -/
abbrev Qrels := List (String × TopicQrels)

/-- Score-descending order on dict items: `a` may come before `b` iff
`b`'s score is at most `a`'s.  This is the comparison performed by
`sorted(docs.keys(), key=lambda x: docs[x], reverse=True)`. -/
def scoreGE (a b : String × ℚ) : Prop := b.2 ≤ a.2

instance : DecidableRel scoreGE := fun a b => inferInstanceAs (Decidable (b.2 ≤ a.2))

instance : IsTotal (String × ℚ) scoreGE := ⟨fun a b => le_total b.2 a.2⟩

instance : IsTrans (String × ℚ) scoreGE := ⟨fun _ _ _ h1 h2 => le_trans h2 h1⟩

/-- `sorted_ids = sorted(docs.keys(), key=lambda x: docs[x], reverse=True)`:
stable sort of the dict items by score, descending, projected to keys. -/
def sortedIds (docs : Docs) : List String :=
  (List.insertionSort scoreGE docs).map Prod.fst

/-- `topic_qrels.get(d, 0)`: the judgment grade of `d`, defaulting to `0`
when `d` has no entry. -/
def effRel (tq : TopicQrels) (d : String) : Int := (tq.lookup d).getD 0

/-- `pos_docs = [d for d in sorted_ids if topic_qrels.get(d, 0) >= 1]`. -/
def posDocs (tq : TopicQrels) (docs : Docs) : List String :=
  (sortedIds docs).filter (fun d => decide (1 ≤ effRel tq d))

/-- `neg_docs = [d for d in sorted_ids if topic_qrels.get(d, 0) == 0]`. -/
def negDocs (tq : TopicQrels) (docs : Docs) : List String :=
  (sortedIds docs).filter (fun d => decide (effRel tq d = 0))

/-- `k = min(len(pos_docs), len(neg_docs))`. -/
def kOf (tq : TopicQrels) (docs : Docs) : Nat :=
  min (posDocs tq docs).length (negDocs tq docs).length

/-- `balanced_ids = set(pos_docs[:k] + neg_docs[:k])` (as a list; membership
is what the code uses it for). -/
def balancedIds (tq : TopicQrels) (docs : Docs) : List String :=
  (posDocs tq docs).take (kOf tq docs) ++ (negDocs tq docs).take (kOf tq docs)

/-- The body of the per-topic loop of `get_balanced_ranking`: when `k > 0`
return `{doc_id: score for doc_id, score in docs.items() if doc_id in
balanced_ids}`, otherwise the topic is skipped (and warned about). -/
def balanceTopic (tq : TopicQrels) (docs : Docs) : Option Docs :=
  if 0 < kOf tq docs then
    some (docs.filter (fun p => decide (p.1 ∈ balancedIds tq docs)))
  else
    none

/-- `get_balanced_ranking(ranking, qrels)` from `analyze_doc_balancing.py`:
iterate the ranking's topics in order, keep the balanced dict of each topic
whose `k` is positive. -/
def get_balanced_ranking : Ranking → Qrels → Ranking
  | [], _ => []
  | (t, docs) :: rest, qrels =>
    match balanceTopic ((qrels.lookup t).getD []) docs with
    | some b => (t, b) :: get_balanced_ranking rest qrels
    | none => get_balanced_ranking rest qrels

/-- The topics named in the `logging.warning` calls of `get_balanced_ranking`
(the `else` branch, taken exactly when `k = 0`). -/
def balanceWarnedTopics : Ranking → Qrels → List String
  | [], _ => []
  | (t, docs) :: rest, qrels =>
    if 0 < kOf ((qrels.lookup t).getD []) docs then balanceWarnedTopics rest qrels
    else t :: balanceWarnedTopics rest qrels

/-! ## `analyze_dreq_filtering.py` -/

/-- `collect_filtered_eqrels`: per query, `pos`/`neg` are the entity ids whose
grade is `>= 1` / `== 0` (in dict iteration order), `k = min(len(pos),
len(neg))`; when `k > 0` the emitted dict maps `pos[:k]` to grade `1` and
`neg[:k]` to grade `0`, otherwise the query is dropped. -/
def collect_filtered_eqrels : Qrels → Qrels
  | [] => []
  | (q, ents) :: rest =>
    let pos := (ents.filter (fun p => decide (1 ≤ p.2))).map Prod.fst
    let neg := (ents.filter (fun p => decide (p.2 = 0))).map Prod.fst
    let k := min pos.length neg.length
    if 0 < k then
      (q, (pos.take k).map (fun e => (e, (1 : Int)))
            ++ (neg.take k).map (fun e => (e, (0 : Int))))
        :: collect_filtered_eqrels rest
    else
      collect_filtered_eqrels rest

/-- One parsed line of a ranking file:
`<qid> <f1> <doc> <rank> <score> <tag>`.  The score is carried as the raw
string `parts[4]`, which `filter_ranking` copies through unchanged. -/
structure RunLine where
  qid : String
  f1 : String
  doc : String
  rank : Nat
  score : String
  tag : String
deriving DecidableEq, Repr

/-- `set(ent_qrels.get(qid).keys()) if qid in ent_qrels else set()`. -/
def scoredEnts (ent_qrels : Qrels) (q : String) : List String :=
  match ent_qrels.lookup q with
  | some ents => ents.map Prod.fst
  | none => []

/-- Entity-link map: `doc_id → set of entities linked within` (a list models
the set; only membership is used). -/
abbrev DocEnts := List (String × List String)

/-- The per-line test of `filter_ranking`: the overlap of the document's
linked entities (`doc_ents.get(doc_id, set())`) with the query's scored
entities is non-empty. -/
def keepLine (ent_qrels : Qrels) (doc_ents : DocEnts) (l : RunLine) : Bool :=
  ((doc_ents.lookup l.doc).getD []).any
    (fun e => decide (e ∈ scoredEnts ent_qrels l.qid))

/-- The inner loop of `filter_ranking` over one query group: a retained line
is rewritten with the current dense rank counter and the fixed tag
`Entity-Filtered`; the counter advances only on retained lines. -/
def processGroup (scored : List String) (doc_ents : DocEnts) :
    Nat → List RunLine → List RunLine
  | _, [] => []
  | rank, l :: rest =>
    if ((doc_ents.lookup l.doc).getD []).any (fun e => decide (e ∈ scored)) then
      { l with rank := rank, tag := "Entity-Filtered" }
        :: processGroup scored doc_ents (rank + 1) rest
    else
      processGroup scored doc_ents rank rest

/-- `itertools.groupby(f_initial, key=qid)`: split a line list into maximal
runs of consecutive lines sharing a query id. -/
def groupRuns : List RunLine → List (List RunLine)
  | [] => []
  | l :: rest =>
    (l :: rest.takeWhile (fun x => x.qid == l.qid))
      :: groupRuns (rest.dropWhile (fun x => x.qid == l.qid))
  termination_by ls => ls.length
  decreasing_by
    simp only [List.length_cons]
    exact Nat.lt_succ_of_le (List.dropWhile_sublist _).length_le

/-- `filter_ranking(ent_qrels, ranking, doc_ents, save)` from
`analyze_dreq_filtering.py`, as the list of lines written to the output
file: for each consecutive query group the rank counter restarts at 1 and
the group's scored-entity set is looked up once from the group key. -/
def filter_ranking (ent_qrels : Qrels) (doc_ents : DocEnts)
    (lines : List RunLine) : List RunLine :=
  (groupRuns lines).flatMap (fun g =>
    match g with
    | [] => []
    | l :: _ => processGroup (scoredEnts ent_qrels l.qid) doc_ents 1 g)

/-- Renumber a line list with consecutive ranks starting at `n`, tagging each
line `Entity-Filtered`; used to state what `filter_ranking` computes. -/
def reRank : Nat → List RunLine → List RunLine
  | _, [] => []
  | n, l :: rest => { l with rank := n, tag := "Entity-Filtered" } :: reRank (n + 1) rest

/-- `comparable_queries = fil_dict.keys() & ref_dict.keys()` in
`get_statistics`. -/
def comparableQueries (fil ref : Ranking) : Finset String :=
  (fil.map Prod.fst).toFinset ∩ (ref.map Prod.fst).toFinset

/-- The document-id set of one query of a ranking (`.get(qid).keys()`). -/
def docSet (r : Ranking) (q : String) : Finset String :=
  (((r.lookup q).getD []).map Prod.fst).toFinset

/-- `overlap = len(fil_docs & ref_docs) / len(ref_docs)` in
`get_statistics`. -/
def overlapOf (fil ref : Ranking) (q : String) : ℚ :=
  ((docSet fil q ∩ docSet ref q).card : ℚ) / ((docSet ref q).card : ℚ)

/-! ## `analyze_shared_entities.py` -/

/-- The per-document loop of `get_classified_entities`.  The state carries
the accumulated positive and negative entity sets and the list of grades the
`else` branch warned about.  `links.get(str(doc_id))` has no default: a
judged document missing from `links` makes `set.update(None)` raise, which
the embedding models as `none`. -/
def classifyDocs (links : DocEnts) :
    List (String × Int) → Finset String × Finset String × List Int →
    Option (Finset String × Finset String × List Int)
  | [], st => some st
  | (d, rel) :: rest, (pos, neg, warns) =>
    if 1 ≤ rel then
      match links.lookup d with
      | some ents => classifyDocs links rest (pos ∪ ents.toFinset, neg, warns)
      | none => none
    else if rel < 1 then
      match links.lookup d with
      | some ents => classifyDocs links rest (pos, neg ∪ ents.toFinset, warns)
      | none => none
    else
      classifyDocs links rest (pos, neg, warns ++ [rel])

/-- The three entity classes reported per topic. -/
structure Classified where
  positive : Finset String
  negative : Finset String
  shared : Finset String
deriving DecidableEq

/-- One iteration of `get_classified_entities`: run the document loop, then
`shared = pos ∩ neg`, `pos -= shared`, `neg -= shared`. -/
def classifyTopic (links : DocEnts) (doc_rels : List (String × Int)) :
    Option Classified :=
  (classifyDocs links doc_rels (∅, ∅, [])).map (fun st =>
    let shared := st.1 ∩ st.2.1
    ⟨st.1 \ shared, st.2.1 \ shared, shared⟩)

/-- `get_classified_entities(qrels, links)` from `analyze_shared_entities.py`;
`none` models the `TypeError` raised on the first judged document that is
missing from the link map. -/
def get_classified_entities : Qrels → DocEnts → Option (List (String × Classified))
  | [], _ => some []
  | (t, doc_rels) :: rest, links =>
    match classifyTopic links doc_rels, get_classified_entities rest links with
    | some c, some res => some ((t, c) :: res)
    | _, _ => none

/-- The grades warned about (`Invalid relevance value found`) across one
topic's document loop, when it completes. -/
def classifyWarned (links : DocEnts) (doc_rels : List (String × Int)) :
    Option (List Int) :=
  (classifyDocs links doc_rels (∅, ∅, [])).map (fun st => st.2.2)

/-! ## Helper lemmas -/

/-- Inserting an element that `r`-precedes every element of `M` puts it in
front. -/
theorem orderedInsert_of_forall {α : Type} {r : α → α → Prop} [DecidableRel r]
    {a : α} {M : List α} (h : ∀ c ∈ M, r a c) :
    M.orderedInsert r a = a :: M := by
  cases M with
  | nil => rfl
  | cons c M => exact List.orderedInsert_of_le r M (h c (List.mem_cons_self c M))

/-- Filtering commutes with `orderedInsert` into a sorted list: the element
is inserted into the filtered list when it passes the filter and dropped
otherwise. -/
theorem filter_orderedInsert {α : Type} {r : α → α → Prop} [DecidableRel r]
    [IsTrans α r] (p : α → Bool) (a : α) :
    ∀ L : List α, L.Sorted r →
      (L.orderedInsert r a).filter p =
        if p a then (L.filter p).orderedInsert r a else L.filter p
  | [], _ => by
    by_cases hpa : p a <;> simp [hpa]
  | b :: L, hs => by
    by_cases hab : r a b
    · rw [List.orderedInsert_of_le r L hab]
      by_cases hpa : p a
      · rw [if_pos hpa, List.filter_cons_of_pos hpa]
        have hall : ∀ c ∈ (b :: L).filter p, r a c := by
          intro c hc
          have hc' := (List.mem_filter.mp hc).1
          rcases List.mem_cons.mp hc' with rfl | hcL
          · exact hab
          · exact Trans.trans hab (List.rel_of_sorted_cons hs c hcL)
        rw [orderedInsert_of_forall hall]
      · rw [if_neg hpa, List.filter_cons_of_neg hpa]
    · have hins : (b :: L).orderedInsert r a = b :: L.orderedInsert r a := by
        simp only [List.orderedInsert, if_neg hab]
      rw [hins]
      have ih := filter_orderedInsert p a L hs.of_cons
      by_cases hpb : p b
      · rw [List.filter_cons_of_pos hpb, List.filter_cons_of_pos hpb, ih]
        by_cases hpa : p a
        · rw [if_pos hpa, if_pos hpa]
          simp only [List.orderedInsert, if_neg hab]
        · rw [if_neg hpa, if_neg hpa]
      · rw [List.filter_cons_of_neg hpb, List.filter_cons_of_neg hpb, ih]

/-- Filtering commutes with the stable sort: sorting then filtering equals
filtering then sorting. -/
theorem filter_insertionSort {α : Type} {r : α → α → Prop} [DecidableRel r]
    [IsTotal α r] [IsTrans α r] (p : α → Bool) (l : List α) :
    (l.insertionSort r).filter p = (l.filter p).insertionSort r := by
  induction l with
  | nil => rfl
  | cons a l ih =>
    rw [List.insertionSort,
      filter_orderedInsert p a _ (List.sorted_insertionSort r l)]
    by_cases hpa : p a
    · rw [if_pos hpa, ih, List.filter_cons_of_pos hpa, List.insertionSort]
    · rw [if_neg hpa, ih, List.filter_cons_of_neg hpa]

/-- Filtering a duplicate-free list by membership in one of its sublists
recovers exactly that sublist. -/
theorem filter_mem_of_sublist {α : Type} [DecidableEq α] :
    ∀ {s l : List α}, List.Sublist s l → l.Nodup →
      l.filter (fun a => decide (a ∈ s)) = s := by
  intro s l hs
  induction hs with
  | slnil => simp
  | @cons s' l' b hsub ih =>
    intro hl
    have hb : b ∉ s' := fun hmem => (List.nodup_cons.mp hl).1 (hsub.subset hmem)
    rw [List.filter_cons_of_neg (by simpa using hb)]
    exact ih (List.nodup_cons.mp hl).2
  | @cons₂ s' l' b hsub ih =>
    intro hl
    have hbl : b ∉ l' := (List.nodup_cons.mp hl).1
    rw [List.filter_cons_of_pos (by simp)]
    have hcongr : ∀ x ∈ l', decide (x ∈ b :: s') = decide (x ∈ s') := by
      intro x hx
      have hxb : x ≠ b := fun h => hbl (h ▸ hx)
      simp [List.mem_cons, hxb]
    rw [List.filter_congr hcongr, ih (List.nodup_cons.mp hl).2]

/-- Looking up a key of a duplicate-free association list finds its value. -/
theorem lookup_some_of_mem {β : Type} :
    ∀ {l : List (String × β)} {k : String} {v : β},
      (l.map Prod.fst).Nodup → (k, v) ∈ l → l.lookup k = some v := by
  intro l
  induction l with
  | nil => intro k v _ hm; exact absurd hm (List.not_mem_nil _)
  | cons p rest ih =>
    obtain ⟨k0, v0⟩ := p
    intro k v hn hm
    rcases List.mem_cons.mp hm with h0 | hrest
    · cases h0
      exact List.lookup_cons_self
    · have hkp : k0 ≠ k := by
        intro h
        have hk : k ∈ rest.map Prod.fst :=
          List.mem_map.mpr ⟨(k, v), hrest, rfl⟩
        rw [List.map_cons] at hn
        exact (List.nodup_cons.mp hn).1 (h ▸ hk)
      have hbeq : (k == k0) = false :=
        beq_eq_false_iff_ne.mpr fun h => hkp h.symm
      rw [List.lookup_cons, hbeq]
      rw [List.map_cons] at hn
      exact ih (List.nodup_cons.mp hn).2 hrest

/-- Looking up a key absent from an association list yields `none`. -/
theorem lookup_none_of_not_mem {β : Type} {l : List (String × β)} {k : String}
    (h : k ∉ l.map Prod.fst) : l.lookup k = none := by
  rw [List.lookup_eq_none_iff]
  intro p hp
  simpa using fun he => h (List.mem_map.mpr ⟨p, hp, he.symm⟩)

/-! ## Structural lemmas about the balancer -/

/-- The sorted id sequence is a permutation of the dict's keys. -/
theorem sortedIds_perm (docs : Docs) :
    List.Perm (sortedIds docs) (docs.map Prod.fst) :=
  (List.perm_insertionSort scoreGE docs).map Prod.fst

theorem sortedIds_nodup {docs : Docs} (h : (docs.map Prod.fst).Nodup) :
    (sortedIds docs).Nodup :=
  ((sortedIds_perm docs).nodup_iff).mpr h

theorem mem_posDocs {tq : TopicQrels} {docs : Docs} {d : String} :
    d ∈ posDocs tq docs ↔ d ∈ sortedIds docs ∧ 1 ≤ effRel tq d := by
  simp [posDocs, List.mem_filter]

theorem mem_negDocs {tq : TopicQrels} {docs : Docs} {d : String} :
    d ∈ negDocs tq docs ↔ d ∈ sortedIds docs ∧ effRel tq d = 0 := by
  simp [negDocs, List.mem_filter]

theorem postake_sublist (tq : TopicQrels) (docs : Docs) :
    List.Sublist ((posDocs tq docs).take (kOf tq docs)) (sortedIds docs) :=
  (List.take_sublist _ _).trans (List.filter_sublist _)

theorem negtake_sublist (tq : TopicQrels) (docs : Docs) :
    List.Sublist ((negDocs tq docs).take (kOf tq docs)) (sortedIds docs) :=
  (List.take_sublist _ _).trans (List.filter_sublist _)

theorem postake_length (tq : TopicQrels) (docs : Docs) :
    ((posDocs tq docs).take (kOf tq docs)).length = kOf tq docs := by
  rw [List.length_take]
  exact min_eq_left (min_le_left _ _)

theorem negtake_length (tq : TopicQrels) (docs : Docs) :
    ((negDocs tq docs).take (kOf tq docs)).length = kOf tq docs := by
  rw [List.length_take]
  exact min_eq_left (min_le_right _ _)

/-- A candidate of positive effective grade is balanced iff it is a top-`k`
positive. -/
theorem key_test_pos (tq : TopicQrels) (docs : Docs) (d : String) :
    (decide (1 ≤ effRel tq d) && decide (d ∈ balancedIds tq docs))
      = decide (d ∈ (posDocs tq docs).take (kOf tq docs)) := by
  rw [← Bool.decide_and, decide_eq_decide]
  constructor
  · rintro ⟨h1, h2⟩
    rcases List.mem_append.mp h2 with h | h
    · exact h
    · have h0 := (mem_negDocs.mp (List.mem_of_mem_take h)).2
      omega
  · intro h
    exact ⟨(mem_posDocs.mp (List.mem_of_mem_take h)).2,
      List.mem_append.mpr (Or.inl h)⟩

/-- A candidate of zero effective grade is balanced iff it is a top-`k`
negative. -/
theorem key_test_neg (tq : TopicQrels) (docs : Docs) (d : String) :
    (decide (effRel tq d = 0) && decide (d ∈ balancedIds tq docs))
      = decide (d ∈ (negDocs tq docs).take (kOf tq docs)) := by
  rw [← Bool.decide_and, decide_eq_decide]
  constructor
  · rintro ⟨h1, h2⟩
    rcases List.mem_append.mp h2 with h | h
    · have h0 := (mem_posDocs.mp (List.mem_of_mem_take h)).2
      omega
    · exact h
  · intro h
    exact ⟨(mem_negDocs.mp (List.mem_of_mem_take h)).2,
      List.mem_append.mpr (Or.inr h)⟩

/-- Filtering a dict by key membership in a sublist of its sorted id
sequence keeps exactly as many items as the sublist has. -/
theorem length_filter_key_mem {docs : Docs} {s : List String}
    (hn : (docs.map Prod.fst).Nodup) (hs : List.Sublist s (sortedIds docs)) :
    (docs.filter (fun p => decide (p.1 ∈ s))).length = s.length := by
  have h1 : ((docs.map Prod.fst).filter (fun d => decide (d ∈ s)))
      = (docs.filter (fun p => decide (p.1 ∈ s))).map Prod.fst := by
    rw [List.filter_map]
    rfl
  have h2 : List.Perm ((sortedIds docs).filter (fun d => decide (d ∈ s)))
      ((docs.map Prod.fst).filter (fun d => decide (d ∈ s))) :=
    (sortedIds_perm docs).filter _
  have h3 := filter_mem_of_sublist hs (sortedIds_nodup hn)
  calc (docs.filter (fun p => decide (p.1 ∈ s))).length
      = ((docs.filter (fun p => decide (p.1 ∈ s))).map Prod.fst).length := by
        rw [List.length_map]
    _ = ((sortedIds docs).filter (fun d => decide (d ∈ s))).length := by
        rw [← h1, h2.length_eq]
    _ = s.length := by rw [h3]

/-- `balanceTopic` succeeds exactly on topics with `k > 0`, and then returns
the dict restricted to the balanced ids. -/
theorem balanceTopic_eq_some {tq : TopicQrels} {docs b : Docs} :
    balanceTopic tq docs = some b ↔
      0 < kOf tq docs ∧
        b = docs.filter (fun p => decide (p.1 ∈ balancedIds tq docs)) := by
  unfold balanceTopic
  split
  · simp_all [eq_comm]
  · simp_all

theorem balanceTopic_eq_none {tq : TopicQrels} {docs : Docs} :
    balanceTopic tq docs = none ↔ kOf tq docs = 0 := by
  unfold balanceTopic
  split
  · rename_i h
    constructor
    · intro hc
      simp at hc
    · intro h0
      exact absurd h0 (by omega)
  · rename_i h
    simp
    omega

/-- Sorting the balanced dict gives the balanced-filtered sorted ids: the
stable sort of a key-filtered dict is the key-filtered stable sort. -/
theorem sortedIds_filter_balanced (tq : TopicQrels) (docs : Docs) :
    sortedIds (docs.filter (fun p => decide (p.1 ∈ balancedIds tq docs)))
      = (sortedIds docs).filter (fun d => decide (d ∈ balancedIds tq docs)) := by
  unfold sortedIds
  rw [List.filter_map, ← filter_insertionSort]
  rfl

/-- Re-extracting the positive class from a balanced dict yields exactly the
top-`k` positives again. -/
theorem posDocs_balanced {tq : TopicQrels} {docs : Docs}
    (hn : (docs.map Prod.fst).Nodup) :
    posDocs tq (docs.filter (fun p => decide (p.1 ∈ balancedIds tq docs)))
      = (posDocs tq docs).take (kOf tq docs) := by
  unfold posDocs
  rw [sortedIds_filter_balanced tq docs, List.filter_filter]
  have hcongr : ∀ d ∈ sortedIds docs,
      (decide (1 ≤ effRel tq d) && decide (d ∈ balancedIds tq docs))
        = decide (d ∈ (posDocs tq docs).take (kOf tq docs)) :=
    fun d _ => key_test_pos tq docs d
  rw [List.filter_congr hcongr]
  exact filter_mem_of_sublist (postake_sublist tq docs) (sortedIds_nodup hn)

/-- Re-extracting the negative class from a balanced dict yields exactly the
top-`k` negatives again. -/
theorem negDocs_balanced {tq : TopicQrels} {docs : Docs}
    (hn : (docs.map Prod.fst).Nodup) :
    negDocs tq (docs.filter (fun p => decide (p.1 ∈ balancedIds tq docs)))
      = (negDocs tq docs).take (kOf tq docs) := by
  unfold negDocs
  rw [sortedIds_filter_balanced tq docs, List.filter_filter]
  have hcongr : ∀ d ∈ sortedIds docs,
      (decide (effRel tq d = 0) && decide (d ∈ balancedIds tq docs))
        = decide (d ∈ (negDocs tq docs).take (kOf tq docs)) :=
    fun d _ => key_test_neg tq docs d
  rw [List.filter_congr hcongr]
  exact filter_mem_of_sublist (negtake_sublist tq docs) (sortedIds_nodup hn)

/-- Balancing a topic's own balanced output changes nothing. -/
theorem balanceTopic_idem {tq : TopicQrels} {docs b : Docs}
    (hn : (docs.map Prod.fst).Nodup) (hb : balanceTopic tq docs = some b) :
    balanceTopic tq b = some b := by
  obtain ⟨hk, rfl⟩ := balanceTopic_eq_some.mp hb
  have hkb : kOf tq (docs.filter (fun p => decide (p.1 ∈ balancedIds tq docs)))
      = kOf tq docs := by
    show min (posDocs tq (docs.filter
          (fun p => decide (p.1 ∈ balancedIds tq docs)))).length
        (negDocs tq (docs.filter
          (fun p => decide (p.1 ∈ balancedIds tq docs)))).length
      = kOf tq docs
    rw [posDocs_balanced hn, negDocs_balanced hn, postake_length, negtake_length,
      min_self]
  have hbids : balancedIds tq (docs.filter
        (fun p => decide (p.1 ∈ balancedIds tq docs)))
      = balancedIds tq docs := by
    show (posDocs tq (docs.filter
          (fun p => decide (p.1 ∈ balancedIds tq docs)))).take
        (kOf tq (docs.filter (fun p => decide (p.1 ∈ balancedIds tq docs))))
      ++ (negDocs tq (docs.filter
          (fun p => decide (p.1 ∈ balancedIds tq docs)))).take
        (kOf tq (docs.filter (fun p => decide (p.1 ∈ balancedIds tq docs))))
      = balancedIds tq docs
    rw [hkb, posDocs_balanced hn, negDocs_balanced hn,
      List.take_of_length_le (le_of_eq (postake_length tq docs)),
      List.take_of_length_le (le_of_eq (negtake_length tq docs))]
    rfl
  rw [balanceTopic_eq_some]
  refine ⟨by rw [hkb]; exact hk, ?_⟩
  rw [hbids, List.filter_filter]
  have hcongr : ∀ p ∈ docs,
      (decide (p.1 ∈ balancedIds tq docs) && decide (p.1 ∈ balancedIds tq docs))
        = decide (p.1 ∈ balancedIds tq docs) := fun p _ => Bool.and_self _
  rw [List.filter_congr hcongr]

/-- Every key of a balanced ranking is a key of the input ranking. -/
theorem get_balanced_keys_sub {qrels : Qrels} :
    ∀ {ranking : Ranking} {t : String},
      t ∈ (get_balanced_ranking ranking qrels).map Prod.fst →
        t ∈ ranking.map Prod.fst := by
  intro ranking
  induction ranking with
  | nil => intro t h; simp [get_balanced_ranking] at h
  | cons p rest ih =>
    obtain ⟨t0, docs⟩ := p
    intro t h
    rw [List.map_cons]
    cases hbt : balanceTopic ((qrels.lookup t0).getD []) docs with
    | some b =>
      rw [get_balanced_ranking, hbt] at h
      rcases List.mem_cons.mp h with h0 | h1
      · exact List.mem_cons.mpr (Or.inl h0)
      · exact List.mem_cons.mpr (Or.inr (ih h1))
    | none =>
      rw [get_balanced_ranking, hbt] at h
      exact List.mem_cons.mpr (Or.inr (ih h))

/-- On a duplicate-free ranking, looking up a topic in the balanced output
computes `balanceTopic` on that topic's candidate dict. -/
theorem get_balanced_lookup {qrels : Qrels} :
    ∀ {ranking : Ranking} {topic : String} {docs : Docs},
      (ranking.map Prod.fst).Nodup → (topic, docs) ∈ ranking →
      (get_balanced_ranking ranking qrels).lookup topic
        = balanceTopic ((qrels.lookup topic).getD []) docs := by
  intro ranking
  induction ranking with
  | nil => intro t docs _ hm; exact absurd hm (List.not_mem_nil _)
  | cons p rest ih =>
    obtain ⟨t0, docs0⟩ := p
    intro topic docs hn hm
    rw [List.map_cons] at hn
    rcases List.mem_cons.mp hm with h0 | hrest
    · cases h0
      cases hbt : balanceTopic ((qrels.lookup t0).getD []) docs0 with
      | some b =>
        rw [get_balanced_ranking, hbt]
        exact List.lookup_cons_self
      | none =>
        rw [get_balanced_ranking, hbt]
        have hnm : t0 ∉ (get_balanced_ranking rest qrels).map Prod.fst :=
          fun hmem => (List.nodup_cons.mp hn).1 (get_balanced_keys_sub hmem)
        exact lookup_none_of_not_mem hnm
    · have ht0 : t0 ≠ topic := by
        intro h
        exact (List.nodup_cons.mp hn).1
          (h ▸ List.mem_map.mpr ⟨(topic, docs), hrest, rfl⟩)
      have htail := ih (List.nodup_cons.mp hn).2 hrest
      cases hbt : balanceTopic ((qrels.lookup t0).getD []) docs0 with
      | some b =>
        rw [get_balanced_ranking, hbt, List.lookup_cons,
          beq_eq_false_iff_ne.mpr fun h => ht0 h.symm]
        exact htail
      | none =>
        rw [get_balanced_ranking, hbt]
        exact htail

/-- Keys of a key-filtered association list. -/
theorem mem_keys_filter {β : Type} {l : List (String × β)} {q : String → Bool}
    {d : String} :
    d ∈ (l.filter (fun p => q p.1)).map Prod.fst ↔ d ∈ l.map Prod.fst ∧ q d := by
  constructor
  · intro h
    obtain ⟨p, hp, rfl⟩ := List.mem_map.mp h
    have hf := List.mem_filter.mp hp
    exact ⟨List.mem_map.mpr ⟨p, hf.1, rfl⟩, hf.2⟩
  · rintro ⟨h1, h2⟩
    obtain ⟨p, hp, rfl⟩ := List.mem_map.mp h1
    exact List.mem_map.mpr ⟨p, List.mem_filter.mpr ⟨hp, h2⟩, rfl⟩

/-- Every balanced id occurs in the sorted id sequence. -/
theorem mem_sortedIds_of_mem_balancedIds {tq : TopicQrels} {docs : Docs}
    {d : String} (h : d ∈ balancedIds tq docs) : d ∈ sortedIds docs := by
  rcases List.mem_append.mp h with h | h
  · exact (mem_posDocs.mp (List.mem_of_mem_take h)).1
  · exact (mem_negDocs.mp (List.mem_of_mem_take h)).1

/-- A topic with an empty class is warned about. -/
theorem warned_of_k_zero {qrels : Qrels} :
    ∀ {ranking : Ranking} {topic : String} {docs : Docs},
      (topic, docs) ∈ ranking →
      kOf ((qrels.lookup topic).getD []) docs = 0 →
      topic ∈ balanceWarnedTopics ranking qrels := by
  intro ranking
  induction ranking with
  | nil => intro t docs hm _; exact absurd hm (List.not_mem_nil _)
  | cons p rest ih =>
    obtain ⟨t0, docs0⟩ := p
    intro topic docs hm hk
    rcases List.mem_cons.mp hm with h0 | hrest
    · cases h0
      rw [balanceWarnedTopics, if_neg (by omega)]
      exact List.mem_cons_self _ _
    · rw [balanceWarnedTopics]
      split
      · exact ih hrest hk
      · exact List.mem_cons_of_mem _ (ih hrest hk)

/-! ## Claim theorems: document balancing -/

/-- C1, counterexample.  In the ranking `{"q1": {"d1": 3, "d3": 2}}` with
qrels `{"q1": {"d1": 1}}`, the candidate `d3` has no judgment entry
(unknown), yet it appears in the balanced output of `get_balanced_ranking`:
`topic_qrels.get(d, 0)` gives it the default grade `0`, so it falls into the
negative class instead of being excluded. -/
theorem unknown_doc_retained_cex :
    ("d3" ∈ (((get_balanced_ranking [("q1", [("d1", (3 : ℚ)), ("d3", (2 : ℚ))])]
        [("q1", [("d1", (1 : Int))])]).lookup "q1").getD []).map Prod.fst)
    ∧ ([("d1", (1 : Int))].lookup "d3" = none) := by decide

/-- C1, amended.  For every query balanced by `get_balanced_ranking`, the
score-sorted candidate sequence is split into `pos` (effective judgment ≥ 1)
and `neg` (effective judgment = 0) sub-sequences, where a candidate with no
judgment entry receives the default effective judgment `0`: such unknown
candidates always land in the negative class, and a candidate is retained
iff it is a top-`k` positive or top-`k` negative — so an unknown candidate
is retained exactly when it is among the top-`k` of the negative class. -/
theorem balanced_unknown_classed_negative :
    ∀ (ranking : Ranking) (qrels : Qrels) (topic : String) (docs b : Docs)
      (d : String),
      (ranking.map Prod.fst).Nodup → (topic, docs) ∈ ranking →
      (get_balanced_ranking ranking qrels).lookup topic = some b →
      (((qrels.lookup topic).getD []).lookup d = none →
        effRel ((qrels.lookup topic).getD []) d = 0) ∧
      (((qrels.lookup topic).getD []).lookup d = none → d ∈ sortedIds docs →
        d ∈ negDocs ((qrels.lookup topic).getD []) docs) ∧
      (d ∈ b.map Prod.fst ↔ d ∈ balancedIds ((qrels.lookup topic).getD []) docs) ∧
      (((qrels.lookup topic).getD []).lookup d = none →
        (d ∈ b.map Prod.fst ↔
          d ∈ (negDocs ((qrels.lookup topic).getD []) docs).take
                (kOf ((qrels.lookup topic).getD []) docs))) := by
  intro ranking qrels topic docs b d hn hm hlk
  have hbt : balanceTopic ((qrels.lookup topic).getD []) docs = some b := by
    rw [← get_balanced_lookup hn hm]
    exact hlk
  obtain ⟨hk, rfl⟩ := balanceTopic_eq_some.mp hbt
  have heff : ((qrels.lookup topic).getD []).lookup d = none →
      effRel ((qrels.lookup topic).getD []) d = 0 := by
    intro h0
    unfold effRel
    rw [h0]
    rfl
  have hmemiff : ∀ e : String,
      e ∈ (docs.filter (fun p =>
          decide (p.1 ∈ balancedIds ((qrels.lookup topic).getD []) docs))).map
            Prod.fst
        ↔ e ∈ balancedIds ((qrels.lookup topic).getD []) docs := by
    intro e
    constructor
    · intro h
      obtain ⟨p, hp, rfl⟩ := List.mem_map.mp h
      exact of_decide_eq_true (List.mem_filter.mp hp).2
    · intro h
      have hs := (sortedIds_perm docs).subset (mem_sortedIds_of_mem_balancedIds h)
      obtain ⟨p, hp, rfl⟩ := List.mem_map.mp hs
      exact List.mem_map.mpr ⟨p, List.mem_filter.mpr ⟨hp, decide_eq_true h⟩, rfl⟩
  refine ⟨heff, ?_, hmemiff d, ?_⟩
  · intro h0 hsort
    exact mem_negDocs.mpr ⟨hsort, heff h0⟩
  · intro h0
    rw [hmemiff d]
    constructor
    · intro h
      rcases List.mem_append.mp h with h | h
      · have h1 := (mem_posDocs.mp (List.mem_of_mem_take h)).2
        have h2 := heff h0
        omega
      · exact h
    · intro h
      exact List.mem_append.mpr (Or.inr h)

/-- C1, amended, witness: the theorem applied to the counterexample input,
where `d3` (unknown) is retained as a top-`k` negative. -/
theorem balanced_unknown_classed_negative_wit :
    ([("q1", [("d1", (1 : Int))])].lookup "d3" = none) ∧
    ("d3" ∈ (negDocs [("d1", (1 : Int))]
        [("d1", (3 : ℚ)), ("d3", (2 : ℚ))]).take
          (kOf [("d1", (1 : Int))] [("d1", (3 : ℚ)), ("d3", (2 : ℚ))])) := by
  have h := balanced_unknown_classed_negative
    [("q1", [("d1", (3 : ℚ)), ("d3", (2 : ℚ))])]
    [("q1", [("d1", (1 : Int))])] "q1"
    [("d1", (3 : ℚ)), ("d3", (2 : ℚ))]
    [("d1", (3 : ℚ)), ("d3", (2 : ℚ))] "d3"
    (by decide) (by decide) (by decide)
  refine ⟨by decide, ?_⟩
  exact (h.2.2.2 (by decide)).mp (by decide)

/-- C7.  A query whose positive or negative class is empty
(`min(|pos|,|neg|) == 0`) is named in a warning and is entirely absent from
the balanced output mapping: its lookup yields `none`. -/
theorem unbalanceable_query_dropped :
    ∀ (ranking : Ranking) (qrels : Qrels) (topic : String) (docs : Docs),
      (ranking.map Prod.fst).Nodup → (topic, docs) ∈ ranking →
      kOf ((qrels.lookup topic).getD []) docs = 0 →
      topic ∈ balanceWarnedTopics ranking qrels ∧
      (get_balanced_ranking ranking qrels).lookup topic = none := by
  intro ranking qrels topic docs hn hm hk
  refine ⟨warned_of_k_zero hm hk, ?_⟩
  rw [get_balanced_lookup hn hm]
  exact balanceTopic_eq_none.mpr hk

/-- C7, witness: a query with only positive judgments is warned and absent. -/
theorem unbalanceable_query_dropped_wit :
    "q1" ∈ balanceWarnedTopics [("q1", [("d1", (3 : ℚ))])]
        [("q1", [("d1", (1 : Int))])] ∧
    (get_balanced_ranking [("q1", [("d1", (3 : ℚ))])]
        [("q1", [("d1", (1 : Int))])]).lookup "q1" = none :=
  unbalanceable_query_dropped [("q1", [("d1", (3 : ℚ))])]
    [("q1", [("d1", (1 : Int))])] "q1" [("d1", (3 : ℚ))]
    (by decide) (by decide) (by decide)

/-- C8.  Balancing is idempotent: re-balancing the balanced output with the
same qrels returns it unchanged (candidate ids are unique per query, as they
are in a Python dict). -/
theorem balancing_idempotent :
    ∀ (ranking : Ranking) (qrels : Qrels),
      (∀ t docs, (t, docs) ∈ ranking → (docs.map Prod.fst).Nodup) →
      get_balanced_ranking (get_balanced_ranking ranking qrels) qrels
        = get_balanced_ranking ranking qrels := by
  intro ranking qrels
  induction ranking with
  | nil => intro _; rfl
  | cons p rest ih =>
    obtain ⟨t0, docs0⟩ := p
    intro hnd
    have hrest := ih (fun t docs hm => hnd t docs (List.mem_cons_of_mem _ hm))
    cases hbt : balanceTopic ((qrels.lookup t0).getD []) docs0 with
    | some b =>
      have hidem := balanceTopic_idem
        (hnd t0 docs0 (List.mem_cons_self _ _)) hbt
      rw [get_balanced_ranking, hbt, get_balanced_ranking, hidem, hrest]
    | none =>
      rw [get_balanced_ranking, hbt, hrest]

/-- C8, witness: an already balanced two-document query is unchanged. -/
theorem balancing_idempotent_wit :
    get_balanced_ranking (get_balanced_ranking
        [("q1", [("d1", (3 : ℚ)), ("d2", (2 : ℚ)), ("d3", (1 : ℚ))])]
        [("q1", [("d1", (1 : Int)), ("d2", (0 : Int))])])
      [("q1", [("d1", (1 : Int)), ("d2", (0 : Int))])]
    = get_balanced_ranking
        [("q1", [("d1", (3 : ℚ)), ("d2", (2 : ℚ)), ("d3", (1 : ℚ))])]
        [("q1", [("d1", (1 : Int)), ("d2", (0 : Int))])] :=
  balancing_idempotent
    [("q1", [("d1", (3 : ℚ)), ("d2", (2 : ℚ)), ("d3", (1 : ℚ))])]
    [("q1", [("d1", (1 : Int)), ("d2", (0 : Int))])]
    (by
      intro t docs hm
      simp only [List.mem_singleton, Prod.mk.injEq] at hm
      obtain ⟨rfl, rfl⟩ := hm
      decide)

/-- The balanced output of a topic holds exactly `k` candidates of positive
effective grade. -/
theorem balance_count_pos {tq : TopicQrels} {docs b : Docs}
    (hn : (docs.map Prod.fst).Nodup) (hb : balanceTopic tq docs = some b) :
    (b.filter (fun p => decide (1 ≤ effRel tq p.1))).length = kOf tq docs := by
  obtain ⟨hk, rfl⟩ := balanceTopic_eq_some.mp hb
  rw [List.filter_filter]
  have hcongr : ∀ p ∈ docs,
      (decide (1 ≤ effRel tq p.1) && decide (p.1 ∈ balancedIds tq docs))
        = decide (p.1 ∈ (posDocs tq docs).take (kOf tq docs)) :=
    fun p _ => key_test_pos tq docs p.1
  rw [List.filter_congr hcongr,
    length_filter_key_mem hn (postake_sublist tq docs), postake_length]

/-- The balanced output of a topic holds exactly `k` candidates of zero
effective grade. -/
theorem balance_count_neg {tq : TopicQrels} {docs b : Docs}
    (hn : (docs.map Prod.fst).Nodup) (hb : balanceTopic tq docs = some b) :
    (b.filter (fun p => decide (effRel tq p.1 = 0))).length = kOf tq docs := by
  obtain ⟨hk, rfl⟩ := balanceTopic_eq_some.mp hb
  rw [List.filter_filter]
  have hcongr : ∀ p ∈ docs,
      (decide (effRel tq p.1 = 0) && decide (p.1 ∈ balancedIds tq docs))
        = decide (p.1 ∈ (negDocs tq docs).take (kOf tq docs)) :=
    fun p _ => key_test_neg tq docs p.1
  rw [List.filter_congr hcongr,
    length_filter_key_mem hn (negtake_sublist tq docs), negtake_length]

/-- Entries re-graded to `1` all pass the grade-1 test. -/
theorem filter_one_of_ones (xs : List String) :
    ((xs.map (fun e => (e, (1 : Int)))).filter (fun p => decide (p.2 = 1)))
      = xs.map (fun e => (e, (1 : Int))) := by
  induction xs with
  | nil => rfl
  | cons a l ihl => simp [List.filter_cons, ihl]

/-- Entries re-graded to `0` all fail the grade-1 test. -/
theorem filter_one_of_zeros (xs : List String) :
    ((xs.map (fun e => (e, (0 : Int)))).filter (fun p => decide (p.2 = 1)))
      = [] := by
  induction xs with
  | nil => rfl
  | cons a l ihl => simp [List.filter_cons, ihl]

/-- Entries re-graded to `1` all fail the grade-0 test. -/
theorem filter_zero_of_ones (xs : List String) :
    ((xs.map (fun e => (e, (1 : Int)))).filter (fun p => decide (p.2 = 0)))
      = [] := by
  induction xs with
  | nil => rfl
  | cons a l ihl => simp [List.filter_cons, ihl]

/-- Entries re-graded to `0` all pass the grade-0 test. -/
theorem filter_zero_of_zeros (xs : List String) :
    ((xs.map (fun e => (e, (0 : Int)))).filter (fun p => decide (p.2 = 0)))
      = xs.map (fun e => (e, (0 : Int))) := by
  induction xs with
  | nil => rfl
  | cons a l ihl => simp [List.filter_cons, ihl]

/-- Each query emitted by `collect_filtered_eqrels` stems from an input
query with both classes non-empty and holds exactly `k` grade-1 and `k`
grade-0 entries, where `k = min(|pos|, |neg|)` of the input query. -/
theorem filtered_eqrels_counts :
    ∀ {eqrels : Qrels} {q : String} {ents : TopicQrels},
      (q, ents) ∈ collect_filtered_eqrels eqrels →
      ∃ ents0 : TopicQrels, (q, ents0) ∈ eqrels ∧
        0 < min ((ents0.filter (fun p => decide (1 ≤ p.2))).length)
              ((ents0.filter (fun p => decide (p.2 = 0))).length) ∧
        (ents.filter (fun p => decide (p.2 = 1))).length
          = min ((ents0.filter (fun p => decide (1 ≤ p.2))).length)
              ((ents0.filter (fun p => decide (p.2 = 0))).length) ∧
        (ents.filter (fun p => decide (p.2 = 0))).length
          = min ((ents0.filter (fun p => decide (1 ≤ p.2))).length)
              ((ents0.filter (fun p => decide (p.2 = 0))).length) := by
  intro eqrels
  induction eqrels with
  | nil => intro q ents h; simp [collect_filtered_eqrels] at h
  | cons p rest ih =>
    obtain ⟨q0, ents0⟩ := p
    intro q ents h
    rw [collect_filtered_eqrels] at h
    by_cases hk : 0 < min
        (((ents0.filter (fun p => decide (1 ≤ p.2))).map Prod.fst).length)
        (((ents0.filter (fun p => decide (p.2 = 0))).map Prod.fst).length)
    · rw [if_pos hk] at h
      rcases List.mem_cons.mp h with h0 | hrest
      · obtain ⟨h1, h2⟩ := Prod.mk.injEq .. ▸ h0
        refine ⟨ents0, ?_, ?_, ?_, ?_⟩
        · rw [h1]; exact List.mem_cons_self _ _
        · simpa using hk
        · rw [h2, List.filter_append, filter_one_of_ones, filter_one_of_zeros,
            List.append_nil, List.length_map, List.length_take,
            List.length_map, List.length_map]
          omega
        · rw [h2, List.filter_append, filter_zero_of_ones, filter_zero_of_zeros,
            List.nil_append, List.length_map, List.length_take,
            List.length_map, List.length_map]
          omega
      · obtain ⟨e0, hmem, hrest2⟩ := ih hrest
        exact ⟨e0, List.mem_cons_of_mem _ hmem, hrest2⟩
    · rw [if_neg hk] at h
      obtain ⟨e0, hmem, hrest2⟩ := ih h
      exact ⟨e0, List.mem_cons_of_mem _ hmem, hrest2⟩

/-- C2.  (a) For every query kept by `get_balanced_ranking`, the retained
candidates of positive effective judgment and of zero effective judgment
each number exactly `k = min(|pos|, |neg|)`.  (b) For every query emitted by
`collect_filtered_eqrels`, the numbers of grade-1 and of grade-0 entries are
equal, both `k = min(|pos|, |neg|)` of that query's input judgments. -/
theorem balanced_classes_equal :
    (∀ (ranking : Ranking) (qrels : Qrels) (topic : String) (docs b : Docs),
      (ranking.map Prod.fst).Nodup → (docs.map Prod.fst).Nodup →
      (topic, docs) ∈ ranking →
      (get_balanced_ranking ranking qrels).lookup topic = some b →
      (b.filter (fun p =>
          decide (1 ≤ effRel ((qrels.lookup topic).getD []) p.1))).length
        = kOf ((qrels.lookup topic).getD []) docs ∧
      (b.filter (fun p =>
          decide (effRel ((qrels.lookup topic).getD []) p.1 = 0))).length
        = kOf ((qrels.lookup topic).getD []) docs) ∧
    (∀ (eqrels : Qrels) (q : String) (ents : TopicQrels),
      (q, ents) ∈ collect_filtered_eqrels eqrels →
      (ents.filter (fun p => decide (p.2 = 1))).length
        = (ents.filter (fun p => decide (p.2 = 0))).length ∧
      ∃ ents0 : TopicQrels, (q, ents0) ∈ eqrels ∧
        (ents.filter (fun p => decide (p.2 = 1))).length
          = min ((ents0.filter (fun p => decide (1 ≤ p.2))).length)
              ((ents0.filter (fun p => decide (p.2 = 0))).length)) := by
  constructor
  · intro ranking qrels topic docs b hn hnd hm hlk
    have hbt : balanceTopic ((qrels.lookup topic).getD []) docs = some b := by
      rw [← get_balanced_lookup hn hm]
      exact hlk
    exact ⟨balance_count_pos hnd hbt, balance_count_neg hnd hbt⟩
  · intro eqrels q ents h
    obtain ⟨ents0, hmem, _, h1, h0⟩ := filtered_eqrels_counts h
    exact ⟨h1.trans h0.symm, ents0, hmem, h1⟩

/-- C2, witness: both conjuncts applied to concrete inputs. -/
theorem balanced_classes_equal_wit :
    (([("d1", (3 : ℚ)), ("d2", (2 : ℚ))].filter (fun p =>
        decide (1 ≤ effRel [("d1", (1 : Int)), ("d2", (0 : Int))] p.1))).length
      = kOf [("d1", (1 : Int)), ("d2", (0 : Int))]
          [("d1", (3 : ℚ)), ("d2", (2 : ℚ)), ("d3", (1 : ℚ))]) ∧
    (([("e1", (1 : Int)), ("e2", (0 : Int))].filter
        (fun p => decide (p.2 = 1))).length
      = ([("e1", (1 : Int)), ("e2", (0 : Int))].filter
        (fun p => decide (p.2 = 0))).length) := by
  constructor
  · exact (balanced_classes_equal.1
      [("q1", [("d1", (3 : ℚ)), ("d2", (2 : ℚ)), ("d3", (1 : ℚ))])]
      [("q1", [("d1", (1 : Int)), ("d2", (0 : Int))])] "q1"
      [("d1", (3 : ℚ)), ("d2", (2 : ℚ)), ("d3", (1 : ℚ))]
      [("d1", (3 : ℚ)), ("d2", (2 : ℚ))]
      (by decide) (by decide) (by decide) (by decide)).1
  · exact (balanced_classes_equal.2
      [("q1", [("e1", (3 : Int)), ("e2", (0 : Int))])] "q1"
      [("e1", (1 : Int)), ("e2", (0 : Int))] (by decide)).1

/-! ## Claim theorems: ranking filtering (`filter_ranking`) -/

/-- Pointwise-equal functions give equal `flatMap`s. -/
theorem flatMap_congr_mem {α β : Type} {l : List α} {f g : α → List β}
    (h : ∀ a ∈ l, f a = g a) : l.flatMap f = l.flatMap g := by
  induction l with
  | nil => rfl
  | cons a rest ih =>
    rw [List.flatMap_cons, List.flatMap_cons, h a (List.mem_cons_self _ _),
      ih fun x hx => h x (List.mem_cons_of_mem _ hx)]

/-- The counter-based inner loop equals filtering then renumbering. -/
theorem processGroup_eq_reRank (scored : List String) (de : DocEnts) :
    ∀ (n : Nat) (g : List RunLine),
      processGroup scored de n g
        = reRank n (g.filter (fun l =>
            ((de.lookup l.doc).getD []).any (fun e => decide (e ∈ scored)))) := by
  intro n g
  induction g generalizing n with
  | nil => rfl
  | cons l rest ih =>
    rw [processGroup]
    by_cases hk : ((de.lookup l.doc).getD []).any (fun e => decide (e ∈ scored)) = true
    · rw [if_pos hk]
      simp only [List.filter_cons]
      rw [if_pos hk, reRank, ih]
    · rw [if_neg hk]
      simp only [List.filter_cons]
      rw [if_neg hk, ih]

/-- Every group produced by `groupRuns` is non-empty and all of its lines
share the qid of its first line. -/
theorem groupRuns_head_qid :
    ∀ (lines : List RunLine) (g : List RunLine), g ∈ groupRuns lines →
      ∃ l0 rest0, g = l0 :: rest0 ∧ ∀ l ∈ g, l.qid = l0.qid := by
  intro lines
  induction lines using groupRuns.induct with
  | case1 => intro g h; simp [groupRuns] at h
  | case2 l rest ih =>
    intro g h
    rw [groupRuns] at h
    rcases List.mem_cons.mp h with h0 | h1
    · refine ⟨l, rest.takeWhile (fun x => x.qid == l.qid), h0, ?_⟩
      intro x hx
      rw [h0] at hx
      rcases List.mem_cons.mp hx with rfl | hx2
      · rfl
      · have hb := List.mem_takeWhile_imp hx2
        exact eq_of_beq hb
    · exact ih _ h1

/-- Membership in a renumbered list comes from a source line with only the
rank and tag rewritten. -/
theorem mem_reRank :
    ∀ {n : Nat} {xs : List RunLine} {l : RunLine}, l ∈ reRank n xs →
      ∃ x ∈ xs, ∃ m : Nat, l = { x with rank := m, tag := "Entity-Filtered" } := by
  intro n xs
  induction xs generalizing n with
  | nil => intro l h; simp [reRank] at h
  | cons x rest ih =>
    intro l h
    rw [reRank] at h
    rcases List.mem_cons.mp h with h0 | h1
    · exact ⟨x, List.mem_cons_self _ _, n, h0⟩
    · obtain ⟨y, hy, m, hm⟩ := ih h1
      exact ⟨y, List.mem_cons_of_mem _ hy, m, hm⟩

/-- C3.  `filter_ranking` retains, within each consecutive query group, the
lines whose linked-entity set intersects the query's scored-entity set
(`keepLine`), in their original relative order, renumbered with dense ranks
starting at 1 per group, carrying the original score field unchanged; the
retention test succeeds iff an entity is shared between the document's links
and the query's scored entities, and every emitted line belongs to a query
present in the entity qrels — queries absent from it lose all documents. -/
theorem filter_ranking_keeps_overlap :
    ∀ (eqr : Qrels) (de : DocEnts) (lines : List RunLine),
      (filter_ranking eqr de lines
        = (groupRuns lines).flatMap
            (fun g => reRank 1 (g.filter (keepLine eqr de)))) ∧
      (∀ l : RunLine, keepLine eqr de l = true ↔
        ∃ e ∈ (de.lookup l.doc).getD [], e ∈ scoredEnts eqr l.qid) ∧
      (∀ l ∈ filter_ranking eqr de lines, (eqr.lookup l.qid).isSome) := by
  intro eqr de lines
  have hmain : filter_ranking eqr de lines
      = (groupRuns lines).flatMap
          (fun g => reRank 1 (g.filter (keepLine eqr de))) := by
    unfold filter_ranking
    apply flatMap_congr_mem
    intro g hg
    obtain ⟨l0, rest0, rfl, hq⟩ := groupRuns_head_qid lines g hg
    show processGroup (scoredEnts eqr l0.qid) de 1 (l0 :: rest0)
      = reRank 1 ((l0 :: rest0).filter (keepLine eqr de))
    rw [processGroup_eq_reRank]
    congr 1
    apply List.filter_congr
    intro x hx
    unfold keepLine
    rw [hq x hx]
  refine ⟨hmain, ?_, ?_⟩
  · intro l
    unfold keepLine
    rw [List.any_eq_true]
    constructor
    · rintro ⟨e, he, hd⟩
      exact ⟨e, he, of_decide_eq_true hd⟩
    · rintro ⟨e, he, hd⟩
      exact ⟨e, he, decide_eq_true hd⟩
  · intro l hl
    rw [hmain] at hl
    obtain ⟨g, hg, hlg⟩ := List.mem_flatMap.mp hl
    obtain ⟨x, hx, m, rfl⟩ := mem_reRank hlg
    have hkeep := (List.mem_filter.mp hx).2
    show (eqr.lookup x.qid).isSome
    unfold keepLine at hkeep
    cases hq : eqr.lookup x.qid with
    | some v => rfl
    | none =>
      exfalso
      unfold scoredEnts at hkeep
      rw [hq] at hkeep
      simp at hkeep

/-! ## Claim theorems: entity classification (`get_classified_entities`) -/

/-- The document loop succeeds iff every judged document has a link entry. -/
theorem classifyDocs_isSome (links : DocEnts) :
    ∀ (drs : List (String × Int)) (st : Finset String × Finset String × List Int),
      (classifyDocs links drs st).isSome = true ↔
        ∀ d r, ((d, r) : String × Int) ∈ drs → (links.lookup d).isSome := by
  intro drs
  induction drs with
  | nil => intro st; simp [classifyDocs]
  | cons p rest ih =>
    obtain ⟨d, rel⟩ := p
    intro st
    obtain ⟨pos, neg, warns⟩ := st
    rw [classifyDocs]
    by_cases h1 : 1 ≤ rel
    · rw [if_pos h1]
      cases hl : links.lookup d with
      | none =>
        simp only [Option.isSome_none, Bool.false_eq_true, false_iff]
        intro hall
        have hh := hall d rel (List.mem_cons_self _ _)
        rw [hl] at hh
        simp at hh
      | some ents =>
        rw [ih]
        constructor
        · intro hall d0 r0 hm
          rcases List.mem_cons.mp hm with h0 | h0
          · obtain ⟨hd, hr⟩ := Prod.mk.injEq .. ▸ h0
            rw [hd, hl]
            rfl
          · exact hall d0 r0 h0
        · intro hall d0 r0 hm
          exact hall d0 r0 (List.mem_cons_of_mem _ hm)
    · rw [if_neg h1]
      by_cases h2 : rel < 1
      · rw [if_pos h2]
        cases hl : links.lookup d with
        | none =>
          simp only [Option.isSome_none, Bool.false_eq_true, false_iff]
          intro hall
          have hh := hall d rel (List.mem_cons_self _ _)
          rw [hl] at hh
          simp at hh
        | some ents =>
          rw [ih]
          constructor
          · intro hall d0 r0 hm
            rcases List.mem_cons.mp hm with h0 | h0
            · obtain ⟨hd, hr⟩ := Prod.mk.injEq .. ▸ h0
              rw [hd, hl]
              rfl
            · exact hall d0 r0 h0
          · intro hall d0 r0 hm
            exact hall d0 r0 (List.mem_cons_of_mem _ hm)
      · exact absurd (by omega : rel < 1) h2

/-- The document loop never extends the warning list: the `else` branch
guarded by `rel >= 1` / `rel < 1` is unreachable for integer grades. -/
theorem classifyDocs_warns (links : DocEnts) :
    ∀ (drs : List (String × Int)) (st : Finset String × Finset String × List Int)
      (res : Finset String × Finset String × List Int),
      classifyDocs links drs st = some res → res.2.2 = st.2.2 := by
  intro drs
  induction drs with
  | nil =>
    intro st res h
    injection h with h2
    rw [← h2]
  | cons p rest ih =>
    obtain ⟨d, rel⟩ := p
    intro st res h
    obtain ⟨pos, neg, warns⟩ := st
    rw [classifyDocs] at h
    by_cases h1 : 1 ≤ rel
    · rw [if_pos h1] at h
      cases hl : links.lookup d with
      | none => rw [hl] at h; simp at h
      | some ents =>
        rw [hl] at h
        exact ih (pos ∪ ents.toFinset, neg, warns) res h
    · rw [if_neg h1] at h
      by_cases h2 : rel < 1
      · rw [if_pos h2] at h
        cases hl : links.lookup d with
        | none => rw [hl] at h; simp at h
        | some ents =>
          rw [hl] at h
          exact ih (pos, neg ∪ ents.toFinset, warns) res h
      · exact absurd (by omega : rel < 1) h2

/-- C9.  `get_classified_entities` is total exactly when every judged
document id has an entry in the link map; any input with a judged document
missing from the link map makes it raise (modelled as `none`), instead of
skipping the document with a warning. -/
theorem classified_total_iff_links_cover :
    ∀ (qrels : Qrels) (links : DocEnts),
      (get_classified_entities qrels links).isSome = true ↔
        ∀ t drs, ((t, drs) : String × TopicQrels) ∈ qrels →
          ∀ d r, ((d, r) : String × Int) ∈ drs → (links.lookup d).isSome := by
  intro qrels links
  induction qrels with
  | nil => simp [get_classified_entities]
  | cons p rest ih =>
    obtain ⟨t0, drs0⟩ := p
    constructor
    · intro h t drs hm d r hdr
      rw [get_classified_entities] at h
      cases hc : classifyTopic links drs0 with
      | none => rw [hc] at h; simp at h
      | some c =>
        rw [hc] at h
        cases hres : get_classified_entities rest links with
        | none => rw [hres] at h; simp at h
        | some res =>
          rcases List.mem_cons.mp hm with h0 | h0
          · obtain ⟨ht, hdrs⟩ := Prod.mk.injEq .. ▸ h0
            have hds : (classifyDocs links drs0 (∅, ∅, [])).isSome = true := by
              unfold classifyTopic at hc
              obtain ⟨st, hst, _⟩ := Option.map_eq_some'.mp hc
              rw [hst]
              rfl
            exact (classifyDocs_isSome links drs0 _).mp hds d r (hdrs ▸ hdr)
          · have hrs : (get_classified_entities rest links).isSome = true := by
              rw [hres]; rfl
            exact ih.mp hrs t drs h0 d r hdr
    · intro hall
      have hhead : (classifyDocs links drs0 (∅, ∅, [])).isSome = true :=
        (classifyDocs_isSome links drs0 _).mpr
          (fun d r hdr => hall t0 drs0 (List.mem_cons_self _ _) d r hdr)
      have hrest : (get_classified_entities rest links).isSome = true :=
        ih.mpr (fun t drs hm => hall t drs (List.mem_cons_of_mem _ hm))
      rw [get_classified_entities]
      obtain ⟨st, hst⟩ := Option.isSome_iff_exists.mp hhead
      obtain ⟨res, hres⟩ := Option.isSome_iff_exists.mp hrest
      have hct : classifyTopic links drs0
          = some (⟨st.1 \ (st.1 ∩ st.2.1), st.2.1 \ (st.1 ∩ st.2.1),
              st.1 ∩ st.2.1⟩ : Classified) := by
        unfold classifyTopic
        rw [hst]
        rfl
      rw [hct, hres]
      rfl

/-- The set algebra of shared-entity removal. -/
theorem shared_removal_algebra (pos neg : Finset String) :
    Disjoint (pos \ (pos ∩ neg)) (neg \ (pos ∩ neg)) ∧
    Disjoint (pos \ (pos ∩ neg)) (pos ∩ neg) ∧
    Disjoint (neg \ (pos ∩ neg)) (pos ∩ neg) ∧
    ((pos \ (pos ∩ neg)) ∪ (neg \ (pos ∩ neg)) ∪ (pos ∩ neg)) = pos ∪ neg := by
  refine ⟨?_, Finset.sdiff_disjoint, Finset.sdiff_disjoint, ?_⟩
  · rw [Finset.disjoint_left]
    intro a ha hb
    rw [Finset.mem_sdiff] at ha hb
    exact ha.2 (Finset.mem_inter.mpr ⟨ha.1, hb.1⟩)
  · ext a
    simp only [Finset.mem_union, Finset.mem_sdiff, Finset.mem_inter]
    tauto

/-- C4.  Every topic classified by `get_classified_entities` yields three
pairwise-disjoint sets where `shared` is the intersection of the raw
positive-document and negative-document entity unions, `positive`/`negative`
are those unions minus `shared`, and the union of the three equals the raw
positive ∪ negative union. -/
theorem classified_entities_partition :
    ∀ (qrels : Qrels) (links : DocEnts) (res : List (String × Classified)),
      get_classified_entities qrels links = some res →
      ∀ t c, ((t, c) : String × Classified) ∈ res →
      ∃ (drs : List (String × Int)) (pos neg : Finset String) (warns : List Int),
        ((t, drs) : String × TopicQrels) ∈ qrels ∧
        classifyDocs links drs (∅, ∅, []) = some (pos, neg, warns) ∧
        c.shared = pos ∩ neg ∧
        c.positive = pos \ (pos ∩ neg) ∧
        c.negative = neg \ (pos ∩ neg) ∧
        Disjoint c.positive c.negative ∧
        Disjoint c.positive c.shared ∧
        Disjoint c.negative c.shared ∧
        (c.positive ∪ c.negative ∪ c.shared) = pos ∪ neg := by
  intro qrels
  induction qrels with
  | nil =>
    intro links res h t c hm
    rw [get_classified_entities] at h
    injection h with h2
    rw [← h2] at hm
    exact absurd hm (List.not_mem_nil _)
  | cons p rest ih =>
    obtain ⟨t0, drs0⟩ := p
    intro links res h t c hm
    rw [get_classified_entities] at h
    cases hc : classifyTopic links drs0 with
    | none => rw [hc] at h; simp at h
    | some c0 =>
      rw [hc] at h
      cases hres : get_classified_entities rest links with
      | none => rw [hres] at h; simp at h
      | some res0 =>
        rw [hres] at h
        injection h with h2
        rw [← h2] at hm
        rcases List.mem_cons.mp hm with h0 | h0
        · obtain ⟨ht, hcc⟩ := Prod.mk.injEq .. ▸ h0
          unfold classifyTopic at hc
          obtain ⟨st, hst, hfc⟩ := Option.map_eq_some'.mp hc
          obtain ⟨halg1, halg2, halg3, halg4⟩ :=
            shared_removal_algebra st.1 st.2.1
          refine ⟨drs0, st.1, st.2.1, st.2.2,
            by rw [ht]; exact List.mem_cons_self _ _, by rw [hst], ?_⟩
          rw [hcc, ← hfc]
          exact ⟨rfl, rfl, rfl, halg1, halg2, halg3, halg4⟩
        · obtain ⟨drs, pos, neg, warns, hmem, hrest2⟩ := ih links res0 hres t c h0
          exact ⟨drs, pos, neg, warns, List.mem_cons_of_mem _ hmem, hrest2⟩

/-- C4, witness: on qrels `{"q1": {"d1": 1, "d2": 0}}` and links
`{"d1": {"e1", "e2"}, "d2": {"e2", "e3"}}` the classified sets are
positive `{"e1"}`, negative `{"e3"}`, shared `{"e2"}`, and the first two are
disjoint. -/
theorem classified_entities_partition_wit :
    Disjoint (Classified.positive ⟨{"e1"}, {"e3"}, {"e2"}⟩)
      (Classified.negative ⟨{"e1"}, {"e3"}, {"e2"}⟩) := by
  obtain ⟨drs, pos, neg, warns, _, _, _, _, _, hd, _⟩ :=
    classified_entities_partition
      [("q1", [("d1", (1 : Int)), ("d2", (0 : Int))])]
      [("d1", ["e1", "e2"]), ("d2", ["e2", "e3"])]
      [("q1", ⟨{"e1"}, {"e3"}, {"e2"}⟩)]
      (by decide) "q1" ⟨{"e1"}, {"e3"}, {"e2"}⟩ (by decide)
  exact hd

/-- C5 (code bug).  On the qrels `{"q1": {"d1": -1}}` with links
`{"d1": {"e1"}}`, the invalid (negative) grade is silently classified as
negative — `e1` joins the negative entity set — and no warning is recorded:
in general the warning branch of the loop is dead, because `rel >= 1` and
`rel < 1` together cover every integer grade. -/
theorem invalid_grade_not_warned :
    (get_classified_entities [("q1", [("d1", (-1 : Int))])] [("d1", ["e1"])]
      = some [("q1", ⟨∅, {"e1"}, ∅⟩)]) ∧
    (classifyWarned [("d1", ["e1"])] [("d1", (-1 : Int))] = some []) ∧
    (∀ (links : DocEnts) (drs : List (String × Int)) (ws : List Int),
      classifyWarned links drs = some ws → ws = []) := by
  refine ⟨by decide, by decide, ?_⟩
  intro links drs ws h
  unfold classifyWarned at h
  obtain ⟨st, hst, hw⟩ := Option.map_eq_some'.mp h
  rw [← hw]
  exact classifyDocs_warns links drs _ st hst

/-! ## Claim theorems: overlap statistics (`get_statistics`) -/

/-- C6, counterexample.  A query with a non-empty reference set that is
absent from the filtered ranking is not comparable: `comparable_queries` is
the key intersection of the two rankings, not the set of queries with
non-empty reference sets. -/
theorem comparable_nonempty_ref_cex :
    ("q1" ∉ comparableQueries [] [("q1", [("d1", (1 : ℚ))])]) ∧
    docSet [("q1", [("d1", (1 : ℚ))])] "q1" ≠ ∅ := by decide

/-- C6, amended.  A query is comparable iff it occurs in both the filtered
and the reference ranking; for every query whose reference set is non-empty
the overlap ratio is `|fil ∩ ref| / |ref|` — equivalently, multiplied by
`|ref|` it gives `|fil ∩ ref|` — and lies in `[0, 1]`.  The code has no
explicit empty-reference guard: it relies on parsed rankings having
non-empty per-query candidate sets. -/
theorem comparable_queries_overlap :
    ∀ (fil ref : Ranking) (q : String),
      (q ∈ comparableQueries fil ref ↔
        q ∈ fil.map Prod.fst ∧ q ∈ ref.map Prod.fst) ∧
      (q ∈ comparableQueries fil ref → docSet ref q ≠ ∅ →
        0 ≤ overlapOf fil ref q ∧ overlapOf fil ref q ≤ 1 ∧
        overlapOf fil ref q * ((docSet ref q).card : ℚ)
          = ((docSet fil q ∩ docSet ref q).card : ℚ)) := by
  intro fil ref q
  constructor
  · simp [comparableQueries, Finset.mem_inter, List.mem_toFinset]
  · intro _ hne
    have hpos : 0 < ((docSet ref q).card : ℚ) := by
      have hc := Finset.card_pos.mpr (Finset.nonempty_iff_ne_empty.mpr hne)
      exact_mod_cast hc
    refine ⟨?_, ?_, ?_⟩
    · unfold overlapOf
      positivity
    · unfold overlapOf
      rw [div_le_one hpos]
      exact_mod_cast Finset.card_le_card Finset.inter_subset_right
    · unfold overlapOf
      exact div_mul_cancel₀ _ (ne_of_gt hpos)

/-- C6, witness: a comparable query with three reference documents, one of
which survives filtering, has overlap in `[0, 1]`. -/
theorem comparable_queries_overlap_wit :
    0 ≤ overlapOf [("q1", [("d1", (1 : ℚ)), ("d2", (1 : ℚ))])]
        [("q1", [("d1", (1 : ℚ)), ("d3", (1 : ℚ)), ("d4", (1 : ℚ))])] "q1" ∧
    overlapOf [("q1", [("d1", (1 : ℚ)), ("d2", (1 : ℚ))])]
        [("q1", [("d1", (1 : ℚ)), ("d3", (1 : ℚ)), ("d4", (1 : ℚ))])] "q1" ≤ 1 := by
  have h := (comparable_queries_overlap
    [("q1", [("d1", (1 : ℚ)), ("d2", (1 : ℚ))])]
    [("q1", [("d1", (1 : ℚ)), ("d3", (1 : ℚ)), ("d4", (1 : ℚ))])] "q1").2
    (by decide) (by decide)
  exact ⟨h.1, h.2.1⟩

/-! ## Claim theorems: re-grading (`collect_filtered_eqrels`) -/

/-- C10.  Every grade emitted by `collect_filtered_eqrels` is exactly `0` or
`1`: a kept entity carries grade `1` iff it stems from an input judgment
with grade ≥ 1 (which may exceed 1), and grade `0` iff it stems from an
input judgment with grade exactly `0`. -/
theorem filtered_eqrels_binary_grades :
    ∀ (eqrels : Qrels) (q : String) (ents : TopicQrels),
      (q, ents) ∈ collect_filtered_eqrels eqrels →
      ∀ e g, ((e, g) : String × Int) ∈ ents →
        (g = 0 ∨ g = 1) ∧
        (g = 1 → ∃ (ents0 : TopicQrels) (s : Int),
          ((q, ents0) : String × TopicQrels) ∈ eqrels ∧
          ((e, s) : String × Int) ∈ ents0 ∧ 1 ≤ s) ∧
        (g = 0 → ∃ ents0 : TopicQrels,
          ((q, ents0) : String × TopicQrels) ∈ eqrels ∧
          ((e, (0 : Int)) : String × Int) ∈ ents0) := by
  intro eqrels
  induction eqrels with
  | nil => intro q ents h; simp [collect_filtered_eqrels] at h
  | cons p rest ih =>
    obtain ⟨q0, ents0⟩ := p
    intro q ents h
    rw [collect_filtered_eqrels] at h
    by_cases hk : 0 < min
        (((ents0.filter (fun p => decide (1 ≤ p.2))).map Prod.fst).length)
        (((ents0.filter (fun p => decide (p.2 = 0))).map Prod.fst).length)
    · rw [if_pos hk] at h
      rcases List.mem_cons.mp h with h0 | hrest
      · obtain ⟨hq, hents⟩ := Prod.mk.injEq .. ▸ h0
        intro e g hm
        rw [hents] at hm
        rcases List.mem_append.mp hm with hmm | hmm
        · obtain ⟨x, hx, hxe⟩ := List.mem_map.mp hmm
          obtain ⟨hxe1, hxg⟩ := Prod.mk.injEq .. ▸ hxe
          obtain ⟨pp, hpp, hppe⟩ :=
            List.mem_map.mp (List.mem_of_mem_take hx)
          have hpf := List.mem_filter.mp hpp
          refine ⟨Or.inr hxg.symm, ?_, ?_⟩
          · intro _
            refine ⟨ents0, pp.2,
              by rw [hq]; exact List.mem_cons_self _ _, ?_,
              of_decide_eq_true hpf.2⟩
            rw [← hxe1, ← hppe]
            exact hpf.1
          · intro h0
            exact absurd (hxg.trans h0) one_ne_zero
        · obtain ⟨x, hx, hxe⟩ := List.mem_map.mp hmm
          obtain ⟨hxe1, hxg⟩ := Prod.mk.injEq .. ▸ hxe
          obtain ⟨pp, hpp, hppe⟩ :=
            List.mem_map.mp (List.mem_of_mem_take hx)
          have hpf := List.mem_filter.mp hpp
          refine ⟨Or.inl hxg.symm, ?_, ?_⟩
          · intro h1
            exact absurd (hxg.trans h1) zero_ne_one
          · intro _
            refine ⟨ents0, by rw [hq]; exact List.mem_cons_self _ _, ?_⟩
            have hp0 : pp.2 = 0 := of_decide_eq_true hpf.2
            rw [← hp0, ← hxe1, ← hppe]
            exact hpf.1
      · intro e g hm
        obtain ⟨hg, h1, h0⟩ := ih q ents hrest e g hm
        refine ⟨hg, fun hgg => ?_, fun hgg => ?_⟩
        · obtain ⟨e0, s, hmem, hh⟩ := h1 hgg
          exact ⟨e0, s, List.mem_cons_of_mem _ hmem, hh⟩
        · obtain ⟨e0, hmem, hh⟩ := h0 hgg
          exact ⟨e0, List.mem_cons_of_mem _ hmem, hh⟩
    · rw [if_neg hk] at h
      intro e g hm
      obtain ⟨hg, h1, h0⟩ := ih q ents h e g hm
      refine ⟨hg, fun hgg => ?_, fun hgg => ?_⟩
      · obtain ⟨e0, s, hmem, hh⟩ := h1 hgg
        exact ⟨e0, s, List.mem_cons_of_mem _ hmem, hh⟩
      · obtain ⟨e0, hmem, hh⟩ := h0 hgg
        exact ⟨e0, List.mem_cons_of_mem _ hmem, hh⟩

/-- C10, witness: on the entity qrels `{"q1": {"e1": 3, "e2": 0}}` the kept
entity `e1` (original grade 3) is re-graded to 1. -/
theorem filtered_eqrels_binary_grades_wit :
    (1 : Int) = 0 ∨ (1 : Int) = 1 :=
  (filtered_eqrels_binary_grades
    [("q1", [("e1", (3 : Int)), ("e2", (0 : Int))])] "q1"
    [("e1", (1 : Int)), ("e2", (0 : Int))] (by decide)
    "e1" 1 (by decide)).1

end TROREP
